import Mathlib

set_option maxRecDepth 100000

/-!
Verification development for the Loki Name System (LNS) subsystem declared in
src/cryptonote_core/loki_name_system.h: the on-chain name registration and
resolution ledger.  Constants, the value buffer, its equality, and the
namespace gate are embedded directly from the header.  The cipher, expiry
policy and database operations are declared in the header but their
implementation file is not part of the repository; those are modelled from
the specification document, and each such definition carries a doc comment
saying so.  Machine integers are modelled as Nat (the code never relies on
wrap-around in the modelled paths; the one sentinel value, NO_EXPIRY, is kept
as the explicit constant 2^64 - 1 and compared against before any addition).
Byte blobs are modelled as lists of naturals.
-/

namespace lns

/-- Byte size of crypto::public_key (crypto/crypto.h). -/
def public_key_size : Nat := 32

/-- Byte size of crypto::ed25519_public_key (crypto/crypto.h). -/
def ed25519_public_key_size : Nat := 32

/-- WALLET_ACCOUNT_BINARY_LENGTH = 2 * sizeof(crypto::public_key), header line 28. -/
def WALLET_ACCOUNT_BINARY_LENGTH : Nat := 2 * public_key_size

/-- LOKINET_ADDRESS_BINARY_LENGTH = sizeof(crypto::ed25519_public_key), header line 30. -/
def LOKINET_ADDRESS_BINARY_LENGTH : Nat := ed25519_public_key_size

/-- SESSION_PUBLIC_KEY_BINARY_LENGTH = 1 + sizeof(crypto::ed25519_public_key), header line 32:
session keys are a 0x05 tag byte followed by an ed25519 key. -/
def SESSION_PUBLIC_KEY_BINARY_LENGTH : Nat := 1 + ed25519_public_key_size

/-- The mapping_type enumeration referenced throughout the header
(lokinet_1year .. lokinet_10years, session, wallet). -/
inductive mapping_type where
  | lokinet_1year
  | lokinet_2years
  | lokinet_5years
  | lokinet_10years
  | session
  | wallet
deriving DecidableEq, Repr

/-- mapping_value::BUFFER_SIZE, header line 36. -/
def BUFFER_SIZE : Nat := 255

/-- mapping_value, header lines 34 to 44: a fixed 255-byte buffer together with
the count of meaningful bytes.  Bytes of the buffer at positions at or beyond
len are present but meaningless (garbage left from earlier contents). -/
structure mapping_value where
  buffer : Fin BUFFER_SIZE → Nat
  len : Nat

/-- The equality operator of mapping_value, header line 42:
other.len == len and memcmp(buffer.data(), other.buffer.data(), len) == 0,
i.e. the length fields agree and the first len buffer bytes agree. -/
def mapping_value.beq (a other : mapping_value) : Bool :=
  (other.len == a.len) &&
    decide (∀ i : Fin BUFFER_SIZE, (i : Nat) < a.len → a.buffer i = other.buffer i)

/-- mapping_type_allowed, header line 61: returns (type == mapping_type::session),
ignoring the hard-fork version argument entirely. -/
def mapping_type_allowed (hf_version : Nat) (type : mapping_type) : Bool :=
  type == mapping_type.session

/-- is_lokinet_type, header line 62: the four lokinet tenure namespaces. -/
def is_lokinet_type (t : mapping_type) : Bool :=
  match t with
  | .lokinet_1year | .lokinet_2years | .lokinet_5years | .lokinet_10years => true
  | _ => false

/-- Modelled from the spec: the fixed cryptographic overhead added by the
authenticated cipher (the authentication tag of the secretbox primitive; the
implementation file defining encrypt_mapping_value is not in the repository).
The spec fixes it only as a constant; 16 bytes is the tag size of the
deployed authenticated-encryption primitive. -/
def crypto_overhead : Nat := 16

/-- Modelled from the spec: the plaintext binary length of a decoded value per
namespace, dispatching to the header constants (wallet addresses are two
32-byte keys, lokinet addresses one 32-byte key, session identities a tag
byte plus a 32-byte key). -/
def binary_length (t : mapping_type) : Nat :=
  if t = mapping_type.wallet then WALLET_ACCOUNT_BINARY_LENGTH
  else if is_lokinet_type t then LOKINET_ADDRESS_BINARY_LENGTH
  else SESSION_PUBLIC_KEY_BINARY_LENGTH

/-- Modelled from the spec: validate_encrypted_mapping_value (declared header
line 77, implementation not in the repository) accepts a blob exactly when its
length equals the plaintext binary length of the namespace plus the fixed
cryptographic overhead. -/
def validate_encrypted_mapping_value (t : mapping_type) (value : List Nat) : Bool :=
  value.length == binary_length t + crypto_overhead

/-- The meaningful bytes of a mapping_value, in order: the first len buffer
entries. -/
def mv_bytes (v : mapping_value) : List Nat :=
  (List.range v.len).map fun i => if h : i < BUFFER_SIZE then v.buffer ⟨i, h⟩ else 0

/-- Rebuild a mapping_value from a byte list, zero-filling the rest of the
buffer. -/
def mv_of_bytes (l : List Nat) : mapping_value :=
  { buffer := fun i => l.getD (i : Nat) 0, len := l.length }

/-- Modelled from the spec: the ciphertext produced by the name-keyed cipher
(implementation of encrypt_mapping_value is not in the repository).  The spec
describes deterministic authenticated encryption whose decryption fails under
a wrong name or tampering; we model it as an ideal deterministic AEAD: the
data component carries the stream-encrypted bytes and the tag component is an
idealized authenticator binding the per-name key and the plaintext bytes. -/
structure lns_ciphertext where
  data : List Nat
  tag : String × List Nat
deriving DecidableEq

/-- Modelled from the spec: the per-name symmetric key is a deterministic
one-way function of the name; idealized here as injective (the name itself). -/
def derive_key (name : String) : String := name

/-- Modelled from the spec: encrypt_mapping_value (declared header line 89,
implementation not in the repository).  Performs only basic overflow
validation (the ciphertext must fit the 255-byte buffer), then produces the
deterministic authenticated ciphertext: length of the data equals the
plaintext length, the tag adds the fixed overhead. -/
def encrypt_mapping_value (name : String) (value : mapping_value) :
    Option lns_ciphertext :=
  if value.len + crypto_overhead ≤ BUFFER_SIZE then
    some { data := mv_bytes value, tag := (derive_key name, mv_bytes value) }
  else none

/-- Modelled from the spec: decrypt_mapping_value (declared header line 90,
implementation not in the repository).  Recomputes the authenticator under the
supplied name and fails (authentication failure) unless it matches the tag;
on success returns the plaintext bytes as a mapping_value. -/
def decrypt_mapping_value (name : String) (enc : lns_ciphertext) :
    Option mapping_value :=
  if enc.tag = (derive_key name, enc.data) then some (mv_of_bytes enc.data)
  else none

/-- NO_EXPIRY = (uint64_t)-1, header line 65. -/
def NO_EXPIRY : Nat := 2 ^ 64 - 1

/-- The network_type enumeration of cryptonote_config. -/
inductive network_type where
  | mainnet
  | testnet
  | stagenet
  | fakechain
deriving DecidableEq

/-- Modelled from the spec: the target block interval in seconds, which
differs between mainnet and the test networks, so a fixed real-world duration
converts to different block counts per network. -/
def DIFFICULTY_TARGET_SECONDS (nettype : network_type) : Nat :=
  match nettype with
  | .mainnet => 120
  | _ => 60

/-- Modelled from the spec: the number of blocks expected in the given number
of years on the given network. -/
def BLOCKS_EXPECTED_IN_YEARS (nettype : network_type) (years : Nat) : Nat :=
  years * 365 * (86400 / DIFFICULTY_TARGET_SECONDS nettype)

/-- The fixed real-world tenure of each lokinet namespace, in years; none for
the namespaces that never expire. -/
def lokinet_expiry_years (t : mapping_type) : Option Nat :=
  match t with
  | .lokinet_1year => some 1
  | .lokinet_2years => some 2
  | .lokinet_5years => some 5
  | .lokinet_10years => some 10
  | _ => none

/-- Modelled from the spec: expiry_blocks (declared header line 67,
implementation not in the repository).  Lokinet namespaces map their tenure to
a block count using the network target interval; session and wallet never
expire and yield the NO_EXPIRY sentinel. -/
def expiry_blocks (nettype : network_type) (t : mapping_type) : Nat :=
  match lokinet_expiry_years t with
  | some years => BLOCKS_EXPECTED_IN_YEARS nettype years
  | none => NO_EXPIRY

/-- mapping_record, header lines 111 to 130.  The encrypted value blob is
modelled as its byte list. -/
structure mapping_record where
  loaded : Bool
  type : mapping_type
  name_hash : Nat
  encrypted_value : List Nat
  register_height : Nat
  owner_id : Nat
  owner : Nat
  txid : Nat
  prev_txid : Nat
deriving DecidableEq, Repr

/-- Modelled from the spec: mapping_record::active (declared header line 118,
implementation not in the repository): current height strictly below
registration height plus the expiry block count, and always true when the
expiry is the NO_EXPIRY sentinel. -/
def mapping_record.active (r : mapping_record) (nettype : network_type)
    (blockchain_height : Nat) : Bool :=
  let expiry := expiry_blocks nettype r.type
  (expiry == NO_EXPIRY) || decide (blockchain_height < r.register_height + expiry)

/-- owner_record, header lines 92 to 99: the loaded flag is the boolean
conversion signalling whether a row was found. -/
structure owner_record where
  loaded : Bool
  id : Nat
  key : Nat
deriving DecidableEq, Repr

/-- settings_record, header lines 101 to 109. -/
structure settings_record where
  loaded : Bool
  top_height : Nat
  top_hash : Nat
  version : Nat
deriving DecidableEq, Repr

/-- A row of the owners store: owners(id PK, ed25519_public_key UNIQUE). -/
structure owner_row where
  id : Nat
  key : Nat
deriving DecidableEq, Repr

/-- A row of the settings store (the singleton checkpoint). -/
structure settings_row where
  top_height : Nat
  top_hash : Nat
  version : Nat
deriving DecidableEq, Repr

/-- A row of the mappings store: mappings(type, name_hash, encrypted_value,
register_height, owner_id, owner_key, txid, prev_txid). -/
structure mapping_row where
  type : mapping_type
  name_hash : Nat
  encrypted_value : List Nat
  register_height : Nat
  owner_id : Nat
  owner : Nat
  txid : Nat
  prev_txid : Nat
deriving DecidableEq, Repr

/-- Modelled from the spec: the persisted state of name_system_db (the sqlite
database behind it; the implementation file is not in the repository).  Three
stores (owners, mappings, settings) plus the surrogate-key counter for owner
ids.  Row lists are kept in insertion order. -/
structure LedgerState where
  owners : List owner_row
  mappings : List mapping_row
  settings : Option settings_row
  next_owner_id : Nat
deriving DecidableEq, Repr

/-- Whether a mapping row belongs to the (type, name_hash) chain. -/
def row_matches (t : mapping_type) (h : Nat) (m : mapping_row) : Bool :=
  decide (m.type = t) && decide (m.name_hash = h)

/-- One comparison step of the head query: keep the row with the greater
register_height, preferring the newer row on a tie. -/
def newer_of (acc : Option mapping_row) (m : mapping_row) : Option mapping_row :=
  match acc with
  | none => some m
  | some b => if b.register_height ≤ m.register_height then some m else some b

/-- The current head among the rows of one chain: the row with the greatest
register_height; among equal heights the most recently inserted wins. -/
def newest_row (rows : List mapping_row) : Option mapping_row :=
  rows.foldl newer_of none

/-- The mapping_record returned for a found row: loaded with the row fields. -/
def record_of_row (m : mapping_row) : mapping_record :=
  { loaded := true, type := m.type, name_hash := m.name_hash,
    encrypted_value := m.encrypted_value, register_height := m.register_height,
    owner_id := m.owner_id, owner := m.owner, txid := m.txid,
    prev_txid := m.prev_txid }

/-- The mapping_record returned when no row was found: loaded is false. -/
def empty_mapping_record : mapping_record :=
  { loaded := false, type := mapping_type.session, name_hash := 0,
    encrypted_value := [], register_height := 0, owner_id := 0, owner := 0,
    txid := 0, prev_txid := 0 }

/-- Modelled from the spec: name_system_db::get_mapping (declared header line
152, implementation not in the repository): the highest-register_height
surviving row of the chain, or a record whose loaded flag is false. -/
def get_mapping (s : LedgerState) (t : mapping_type) (h : Nat) : mapping_record :=
  match newest_row (s.mappings.filter (row_matches t h)) with
  | some m => record_of_row m
  | none => empty_mapping_record

/-- Modelled from the spec: name_system_db::get_owner_by_key (declared header
line 150): the owner row with the given public key, absence signalled by the
loaded flag. -/
def get_owner_by_key (s : LedgerState) (k : Nat) : owner_record :=
  match s.owners.find? (fun o => decide (o.key = k)) with
  | some o => { loaded := true, id := o.id, key := o.key }
  | none => { loaded := false, id := 0, key := 0 }

/-- Modelled from the spec: name_system_db::get_owner_by_id (declared header
line 151). -/
def get_owner_by_id (s : LedgerState) (i : Nat) : owner_record :=
  match s.owners.find? (fun o => decide (o.id = i)) with
  | some o => { loaded := true, id := o.id, key := o.key }
  | none => { loaded := false, id := 0, key := 0 }

/-- Modelled from the spec: name_system_db::get_settings (declared header line
156): the singleton checkpoint row, absence signalled by the loaded flag. -/
def get_settings (s : LedgerState) : settings_record :=
  match s.settings with
  | some r =>
    { loaded := true, top_height := r.top_height, top_hash := r.top_hash,
      version := r.version }
  | none => { loaded := false, top_height := 0, top_hash := 0, version := 0 }

/-- The decoded name-system payload of one transaction, as supplied by the
external transaction-extra parser: the transaction id, namespace, hashed
name, encrypted value blob, owner public key, and the result of the
signature-chain check (the elliptic-curve arithmetic is an external
primitive, abstracted as the verdict bit). -/
structure lns_tx where
  txid : Nat
  type : mapping_type
  name_hash : Nat
  encrypted_value : List Nat
  owner_key : Nat
  sig_ok : Bool
deriving DecidableEq, Repr

/-- Modelled from the spec: the per-transaction revalidation performed during
block ingestion (name_system_db::validate_lns_tx, declared header line 159):
the namespace must be currently accepted, the encrypted blob must have the
exact encrypted length for the namespace, and the ownership signature must
chain correctly. -/
def tx_valid (hf_version : Nat) (tx : lns_tx) : Bool :=
  mapping_type_allowed hf_version tx.type &&
    validate_encrypted_mapping_value tx.type tx.encrypted_value && tx.sig_ok

/-- The ledger state together with the count of storage writes issued so far
inside the current block transaction. -/
structure WState where
  st : LedgerState
  writes : Nat

/-- One storage write: the storage layer may fail it (the fails oracle names
the failing write indices); on failure the whole enclosing block transaction
is lost. -/
def do_write (fails : Nat → Bool) (w : WState) (f : LedgerState → LedgerState) :
    Option WState :=
  if fails w.writes then none else some ⟨f w.st, w.writes + 1⟩

/-- Modelled from the spec: name_system_db::save_owner (declared header line
143): reuse the existing row when the public key already has one, otherwise
insert a fresh row under the next surrogate id.  Returns the owner id. -/
def save_owner (fails : Nat → Bool) (w : WState) (key : Nat) :
    Option (WState × Nat) :=
  match w.st.owners.find? (fun o => decide (o.key = key)) with
  | some o => some (w, o.id)
  | none =>
    match do_write fails w
        (fun s =>
          { s with
            owners := s.owners ++ [{ id := s.next_owner_id, key := key }],
            next_owner_id := s.next_owner_id + 1 }) with
    | some w1 => some (w1, w.st.next_owner_id)
    | none => none

/-- Modelled from the spec: name_system_db::save_mapping (declared header line
144): append a new mapping row anchored at the block height, with prev_txid
set to the txid of the prior head of the (type, name_hash) chain, or zero
when this is a fresh registration. -/
def save_mapping (fails : Nat → Bool) (w : WState) (tx : lns_tx) (height : Nat)
    (oid : Nat) : Option WState :=
  let head := get_mapping w.st tx.type tx.name_hash
  do_write fails w
    (fun s =>
      { s with
        mappings := s.mappings ++
          [{ type := tx.type, name_hash := tx.name_hash,
             encrypted_value := tx.encrypted_value, register_height := height,
             owner_id := oid, owner := tx.owner_key, txid := tx.txid,
             prev_txid := if head.loaded then head.txid else 0 }] })

/-- The schema version written into the checkpoint row. -/
def lns_db_version : Nat := 0

/-- Modelled from the spec: name_system_db::save_settings (declared header
line 145): rewrite the singleton checkpoint row. -/
def save_settings (fails : Nat → Bool) (w : WState) (top_height top_hash : Nat) :
    Option WState :=
  do_write fails w
    (fun s =>
      { s with
        settings := some
          { top_height := top_height, top_hash := top_hash,
            version := lns_db_version } })

/-- Modelled from the spec: ingestion of one transaction during add_block: an
invalid payload is skipped (the block continues), a valid one writes the owner
row (idempotent) and the mapping row; a storage failure aborts. -/
def apply_tx (hf_version : Nat) (fails : Nat → Bool) (height : Nat) (w : WState)
    (tx : lns_tx) : Option WState :=
  if tx_valid hf_version tx then
    match save_owner fails w tx.owner_key with
    | some (w1, oid) => save_mapping fails w1 tx height oid
    | none => none
  else some w

/-- Ingestion of the transaction list of one block, in order. -/
def apply_txs (hf_version : Nat) (fails : Nat → Bool) (height : Nat)
    (w : WState) : List lns_tx → Option WState
  | [] => some w
  | tx :: rest =>
    match apply_tx hf_version fails height w tx with
    | some w1 => apply_txs hf_version fails height w1 rest
    | none => none

/-- Modelled from the spec: name_system_db::add_block (declared header line
135): ingest every transaction of the block, then advance the checkpoint to
the block height and hash as the final write; all inside one atomic storage
transaction, so any storage failure yields none and no partial state. -/
def add_block (hf_version : Nat) (s : LedgerState) (height : Nat)
    (block_hash : Nat) (txs : List lns_tx) (fails : Nat → Bool) :
    Option LedgerState :=
  match apply_txs hf_version fails height ⟨s, 0⟩ txs with
  | some w =>
    match save_settings fails w height block_hash with
    | some w1 => some w1.st
    | none => none
  | none => none

/-- The oracle under which no storage write fails. -/
def no_failure : Nat → Bool := fun _ => false

/-- Modelled from the spec: name_system_db::prune_db (declared header line
148), the destructive half of block_detach: delete every mapping row
registered at the given height or newer, then delete every owner row no
longer referenced by any surviving mapping row. -/
def prune_db (s : LedgerState) (height : Nat) : LedgerState :=
  let surviving := s.mappings.filter (fun m => decide (m.register_height < height))
  { s with
    mappings := surviving,
    owners := s.owners.filter
      (fun o => surviving.any (fun m => decide (m.owner_id = o.id))) }

/-- A concrete 33-byte plaintext value (the session binary length), used by
the concrete witnesses below. -/
def mvW : mapping_value := { buffer := fun _ => 7, len := 33 }

/-- The same logical value as mvW with different trailing buffer garbage. -/
def mvW2 : mapping_value :=
  { buffer := fun i => if (i : Nat) < 33 then 7 else 9, len := 33 }

/-- The ciphertext of mvW under the name alice. -/
def cW : lns_ciphertext :=
  { data := mv_bytes mvW, tag := ("alice", mv_bytes mvW) }

/-- The empty ledger used as the starting state of the concrete witnesses. -/
def s0W : LedgerState :=
  { owners := [], mappings := [], settings := none, next_owner_id := 1 }

/-- A blob of the exact encrypted session length, for the witnesses. -/
def blobW : List Nat := List.replicate 49 0

/-- A concrete registration transaction payload. -/
def tx1W : lns_tx :=
  { txid := 11, type := mapping_type.session, name_hash := 1,
    encrypted_value := blobW, owner_key := 5, sig_ok := true }

/-- A concrete update transaction payload for the same chain and owner. -/
def tx2W : lns_tx :=
  { txid := 22, type := mapping_type.session, name_hash := 1,
    encrypted_value := blobW, owner_key := 5, sig_ok := true }

/-- A storage oracle that fails the third write of a block. -/
def failAt2 : Nat → Bool := fun n => n == 2

/-- The ledger after ingesting tx1W at height 10. -/
def s1W : LedgerState := (add_block 0 s0W 10 100 [tx1W] no_failure).getD s0W

/-- The ledger after then ingesting tx2W at height 20. -/
def s2W : LedgerState := (add_block 0 s1W 20 200 [tx2W] no_failure).getD s1W

/-- A concrete mapping row registered at height 10. -/
def r10W : mapping_row :=
  { type := mapping_type.session, name_hash := 1, encrypted_value := blobW,
    register_height := 10, owner_id := 1, owner := 5, txid := 11,
    prev_txid := 0 }

/-- A concrete mapping row for the same chain registered at height 20, held by
a different owner. -/
def r20W : mapping_row :=
  { type := mapping_type.session, name_hash := 1, encrypted_value := blobW,
    register_height := 20, owner_id := 2, owner := 6, txid := 22,
    prev_txid := 11 }

/-- A ledger holding r10W and r20W and both owner rows, for the reorg
witness. -/
def s3W : LedgerState :=
  { owners := [{ id := 1, key := 5 }, { id := 2, key := 6 }],
    mappings := [r10W, r20W], settings := none, next_owner_id := 3 }

section helper_lemmas

/-- The byte list of a mapping_value has exactly len entries. -/
theorem mv_bytes_length (v : mapping_value) : (mv_bytes v).length = v.len := by
  simp [mv_bytes]

/-- Reading the byte list of a mapping_value inside its length yields the
buffer byte. -/
theorem mv_bytes_getD (v : mapping_value) (i : Nat) (h1 : i < v.len)
    (h2 : i < BUFFER_SIZE) : (mv_bytes v).getD i 0 = v.buffer ⟨i, h2⟩ := by
  rw [mv_bytes, List.getD_eq_getElem?_getD, List.getElem?_map,
    List.getElem?_range h1]
  simp [h2]

end helper_lemmas

/-- Claim C9: mapping_value equality compares only the logical contents: it is
true exactly when the len fields agree and the first len buffer bytes agree;
buffer bytes at or beyond len never influence the result (they do not occur
on the right-hand side), so values differing only in trailing garbage compare
equal. -/
theorem mapping_value_eq_iff (a b : mapping_value) :
    mapping_value.beq a b = true ↔
      (a.len = b.len ∧
        ∀ i : Fin BUFFER_SIZE, (i : Nat) < a.len → a.buffer i = b.buffer i) := by
  rw [mapping_value.beq, Bool.and_eq_true, beq_iff_eq, decide_eq_true_iff]
  exact ⟨fun ⟨h1, h2⟩ => ⟨h1.symm, h2⟩, fun ⟨h1, h2⟩ => ⟨h1.symm, h2⟩⟩

/-- Claim C5: for every hard-fork version, new registrations are accepted for
exactly the session namespace, and the hard-fork version argument never
influences the verdict. -/
theorem mapping_type_allowed_session_only (hf_version hf_version2 : Nat)
    (t : mapping_type) :
    (mapping_type_allowed hf_version t = true ↔ t = mapping_type.session) ∧
      mapping_type_allowed hf_version t = mapping_type_allowed hf_version2 t := by
  cases t <;> simp [mapping_type_allowed]

/-- Claim C4: a record is active exactly below register_height plus the expiry
block count when the namespace expires, is always active when expiry_blocks
yields the NO_EXPIRY sentinel, and for an expiring namespace is active on all
of [register_height, register_height + expiry) and inactive at or beyond the
bound. -/
theorem mapping_record_active_characterization (r : mapping_record)
    (nettype : network_type) (h : Nat) :
    (expiry_blocks nettype r.type = NO_EXPIRY → r.active nettype h = true) ∧
      (expiry_blocks nettype r.type ≠ NO_EXPIRY →
        (r.active nettype h = true ↔
          h < r.register_height + expiry_blocks nettype r.type)) ∧
      (expiry_blocks nettype r.type ≠ NO_EXPIRY →
        ((r.register_height ≤ h ∧
            h < r.register_height + expiry_blocks nettype r.type) →
          r.active nettype h = true) ∧
        (r.register_height + expiry_blocks nettype r.type ≤ h →
          r.active nettype h = false)) := by
  unfold mapping_record.active
  refine ⟨fun he => ?_, fun he => ?_, fun he => ⟨fun hin => ?_, fun hge => ?_⟩⟩ <;>
    simp_all <;> omega

/-- Claim C8: encryption is deterministic: it depends only on the name and the
logical plaintext (there is no randomness or per-call nonce input), so any
two invocations with the same name and the same plaintext value produce
byte-identical ciphertext, even across representations differing only in
trailing buffer garbage. -/
theorem encrypt_mapping_value_deterministic (name : String)
    (v1 v2 : mapping_value) (heq : mapping_value.beq v1 v2 = true) :
    encrypt_mapping_value name v1 = encrypt_mapping_value name v2 := by
  rw [mapping_value.beq, Bool.and_eq_true, beq_iff_eq, decide_eq_true_iff] at heq
  obtain ⟨hlen, hbuf⟩ := heq
  have hbytes : mv_bytes v1 = mv_bytes v2 := by
    rw [mv_bytes, mv_bytes, hlen]
    refine List.map_congr_left fun i hi => ?_
    rw [List.mem_range] at hi
    by_cases h2 : i < BUFFER_SIZE
    · simp only [dif_pos h2]
      exact hbuf ⟨i, h2⟩ hi
    · simp only [dif_neg h2]
  rw [encrypt_mapping_value, encrypt_mapping_value, ← hlen, hbytes]

/-- Claim C8 witness: the concrete value mvW and its trailing-garbage variant
mvW2 encrypt under the name alice to byte-identical ciphertext. -/
theorem encrypt_mapping_value_deterministic_witness :
    encrypt_mapping_value "alice" mvW = encrypt_mapping_value "alice" mvW2 :=
  encrypt_mapping_value_deterministic "alice" mvW mvW2 (by decide)

/-- Claim C1: decrypting under the same name the ciphertext produced by
encrypt_mapping_value returns exactly the original plaintext value, and
decryption fails under any different name. -/
theorem encrypt_decrypt_round_trip (name other : String) (v : mapping_value)
    (c : lns_ciphertext) (henc : encrypt_mapping_value name v = some c)
    (hne : other ≠ name) :
    (∃ w, decrypt_mapping_value name c = some w ∧
        mapping_value.beq w v = true) ∧
      decrypt_mapping_value other c = none := by
  rw [encrypt_mapping_value] at henc
  by_cases hfit : v.len + crypto_overhead ≤ BUFFER_SIZE
  case neg => rw [if_neg hfit] at henc; exact absurd henc (by simp)
  rw [if_pos hfit, Option.some.injEq] at henc
  subst henc
  constructor
  · refine ⟨mv_of_bytes (mv_bytes v), ?_, ?_⟩
    · simp [decrypt_mapping_value]
    · rw [mapping_value.beq, Bool.and_eq_true, beq_iff_eq, decide_eq_true_iff]
      constructor
      · simp [mv_of_bytes, mv_bytes_length]
      · intro i hi
        have hlen : (mv_of_bytes (mv_bytes v)).len = v.len := by
          simp [mv_of_bytes, mv_bytes_length]
        rw [hlen] at hi
        show (mv_bytes v).getD (i : Nat) 0 = v.buffer i
        rw [mv_bytes_getD v (i : Nat) hi i.isLt]
  · rw [decrypt_mapping_value]
    rw [if_neg]
    simp only [derive_key, Prod.mk.injEq, not_and]
    intro hcontr
    exact absurd hcontr.symm hne

/-- Claim C1 witness: the concrete value mvW encrypted under alice decrypts
back to it under alice and fails to decrypt under bob. -/
theorem encrypt_decrypt_round_trip_witness :
    (∃ w, decrypt_mapping_value "alice" cW = some w ∧
        mapping_value.beq w mvW = true) ∧
      decrypt_mapping_value "bob" cW = none :=
  encrypt_decrypt_round_trip "alice" "bob" mvW cW (by rfl) (by decide)

section ledger_lemmas

/-- newer_of applied to a present accumulator keeps the higher row. -/
theorem newer_of_some (b m : mapping_row) :
    newer_of (some b) m =
      some (if b.register_height ≤ m.register_height then m else b) := by
  rw [newer_of]
  by_cases hc : b.register_height ≤ m.register_height
  · rw [if_pos hc, if_pos hc]
  · rw [if_neg hc, if_neg hc]

/-- Folding newer_of from a present accumulator stays present. -/
theorem foldl_newer_of_isSome (l : List mapping_row) (b : mapping_row) :
    (l.foldl newer_of (some b)).isSome = true := by
  induction l generalizing b with
  | nil => rfl
  | cons x xs ih =>
    rw [List.foldl_cons, newer_of_some]
    by_cases hc : b.register_height ≤ x.register_height
    · rw [if_pos hc]; exact ih x
    · rw [if_neg hc]; exact ih b

/-- The head query is empty exactly on the empty row list. -/
theorem newest_row_eq_none_iff (l : List mapping_row) :
    newest_row l = none ↔ l = [] := by
  cases l with
  | nil => simp [newest_row]
  | cons x xs =>
    rw [newest_row, List.foldl_cons,
      show newer_of none x = some x from rfl]
    refine iff_of_false (fun hq => ?_) (by simp)
    have hs := foldl_newer_of_isSome xs x
    rw [hq] at hs
    exact absurd hs (by simp)

/-- Folding newer_of yields the accumulator or a list element. -/
theorem foldl_newer_of_mem (l : List mapping_row) (b c : mapping_row)
    (h : l.foldl newer_of (some b) = some c) : c = b ∨ c ∈ l := by
  induction l generalizing b with
  | nil =>
    rw [List.foldl_nil] at h
    exact Or.inl (Option.some.inj h).symm
  | cons x xs ih =>
    rw [List.foldl_cons, newer_of_some] at h
    by_cases hc : b.register_height ≤ x.register_height
    · rw [if_pos hc] at h
      rcases ih x h with h1 | h1
      · exact Or.inr (by simp [h1])
      · exact Or.inr (List.mem_cons_of_mem _ h1)
    · rw [if_neg hc] at h
      rcases ih b h with h1 | h1
      · exact Or.inl h1
      · exact Or.inr (List.mem_cons_of_mem _ h1)

/-- The head row is one of the rows. -/
theorem newest_row_mem (l : List mapping_row) (c : mapping_row)
    (h : newest_row l = some c) : c ∈ l := by
  cases l with
  | nil => exact absurd h (by simp [newest_row])
  | cons x xs =>
    rw [newest_row, List.foldl_cons,
      show newer_of none x = some x from rfl] at h
    rcases foldl_newer_of_mem xs x c h with h1 | h1
    · simp [h1]
    · exact List.mem_cons_of_mem _ h1

/-- A row appended behind the whole chain, at a height at least every other
height of the chain, becomes the head. -/
theorem newest_row_append_last (l : List mapping_row) (r : mapping_row)
    (hge : ∀ m ∈ l, m.register_height ≤ r.register_height) :
    newest_row (l ++ [r]) = some r := by
  rw [newest_row, List.foldl_append, List.foldl_cons, List.foldl_nil]
  cases hq : l.foldl newer_of none with
  | none => rfl
  | some b =>
    have hb : b ∈ l := newest_row_mem l b hq
    rw [newer_of_some, if_pos (hge b hb)]

/-- The loaded flag of get_mapping is false exactly when the chain has no
surviving rows. -/
theorem get_mapping_loaded_false_iff (s : LedgerState) (t : mapping_type)
    (nh : Nat) :
    (get_mapping s t nh).loaded = false ↔
      s.mappings.filter (row_matches t nh) = [] := by
  rw [get_mapping]
  cases hq : newest_row (s.mappings.filter (row_matches t nh)) with
  | none => exact iff_of_true rfl ((newest_row_eq_none_iff _).mp hq)
  | some m =>
    refine iff_of_false (by simp [record_of_row]) fun hnil => ?_
    rw [hnil] at hq
    exact absurd hq (by simp [newest_row])

/-- get_mapping reads only the mappings store. -/
theorem get_mapping_eq_of_mappings_eq (s1 s2 : LedgerState) (t : mapping_type)
    (nh : Nat) (h : s1.mappings = s2.mappings) :
    get_mapping s1 t nh = get_mapping s2 t nh := by
  rw [get_mapping, get_mapping, h]

/-- save_owner never touches the mappings store. -/
theorem save_owner_mappings (fails : Nat → Bool) (w : WState) (key : Nat)
    (w1 : WState) (oid : Nat)
    (h : save_owner fails w key = some (w1, oid)) :
    w1.st.mappings = w.st.mappings := by
  rw [save_owner] at h
  cases hf1 : w.st.owners.find? (fun o => decide (o.key = key)) with
  | some o =>
    rw [hf1] at h
    simp only [Option.some.injEq, Prod.mk.injEq] at h
    rw [← h.1]
  | none =>
    rw [hf1, do_write] at h
    by_cases hfw : fails w.writes = true
    · rw [if_pos hfw] at h; exact Option.noConfusion h
    · rw [if_neg hfw] at h
      simp only [Option.some.injEq, Prod.mk.injEq] at h
      rw [← h.1]

/-- Ingesting a block holding one valid transaction with no storage failure
appends exactly one mapping row, anchored at the block height, whose
prev_txid is the txid of the prior chain head, or zero for a fresh
registration. -/
theorem add_block_single (hf : Nat) (s : LedgerState) (h bh : Nat)
    (tx : lns_tx) (s2 : LedgerState) (hv : tx_valid hf tx = true)
    (hadd : add_block hf s h bh [tx] no_failure = some s2) :
    ∃ oid, s2.mappings = s.mappings ++
      [{ type := tx.type, name_hash := tx.name_hash,
         encrypted_value := tx.encrypted_value, register_height := h,
         owner_id := oid, owner := tx.owner_key, txid := tx.txid,
         prev_txid :=
           if (get_mapping s tx.type tx.name_hash).loaded then
             (get_mapping s tx.type tx.name_hash).txid
           else 0 }] := by
  rw [add_block] at hadd
  cases happ : apply_txs hf no_failure h ⟨s, 0⟩ [tx] with
  | none => rw [happ] at hadd; exact Option.noConfusion hadd
  | some w =>
    simp only [happ] at hadd
    simp only [save_settings, do_write, no_failure, Bool.false_eq_true,
      if_false, Option.some.injEq] at hadd
    rw [apply_txs] at happ
    cases hstep : apply_tx hf no_failure h ⟨s, 0⟩ tx with
    | none => rw [hstep] at happ; exact Option.noConfusion happ
    | some w1 =>
      simp only [hstep] at happ
      rw [apply_txs] at happ
      simp only [Option.some.injEq] at happ
      rw [apply_tx, if_pos hv] at hstep
      cases hso : save_owner no_failure ⟨s, 0⟩ tx.owner_key with
      | none => rw [hso] at hstep; exact Option.noConfusion hstep
      | some pair =>
        obtain ⟨w0, oid⟩ := pair
        simp only [hso] at hstep
        simp only [save_mapping, do_write, no_failure, Bool.false_eq_true,
          if_false, Option.some.injEq] at hstep
        have hw0 : w0.st.mappings = s.mappings :=
          save_owner_mappings no_failure ⟨s, 0⟩ tx.owner_key w0 oid hso
        have hgm : get_mapping w0.st tx.type tx.name_hash =
            get_mapping s tx.type tx.name_hash :=
          get_mapping_eq_of_mappings_eq _ _ _ _ hw0
        subst hstep
        subst happ
        refine ⟨oid, ?_⟩
        rw [← hadd]
        simp only [hgm, hw0]

/-- Ingesting one valid transaction makes its row the chain head, provided no
surviving row of the chain sits above the block height: get_mapping then
returns the new row, whose prev_txid is the txid of the prior head or zero,
and every mapping row is an old one or anchored at the block height. -/
theorem get_mapping_after_add_block (hf : Nat) (s : LedgerState) (h bh : Nat)
    (tx : lns_tx) (s2 : LedgerState) (t : mapping_type) (nh : Nat)
    (hv : tx_valid hf tx = true) (ht : tx.type = t) (hn : tx.name_hash = nh)
    (hadd : add_block hf s h bh [tx] no_failure = some s2)
    (hnewest : ∀ m ∈ s.mappings.filter (row_matches t nh),
      m.register_height ≤ h) :
    (get_mapping s2 t nh).loaded = true ∧
      (get_mapping s2 t nh).txid = tx.txid ∧
      (get_mapping s2 t nh).prev_txid =
        (if (get_mapping s t nh).loaded then (get_mapping s t nh).txid
         else 0) ∧
      (get_mapping s2 t nh).register_height = h ∧
      ∀ m ∈ s2.mappings, m ∈ s.mappings ∨ m.register_height = h := by
  obtain ⟨oid, hm⟩ := add_block_single hf s h bh tx s2 hv hadd
  rw [ht, hn] at hm
  have hmatch : row_matches t nh
      { type := t, name_hash := nh, encrypted_value := tx.encrypted_value,
        register_height := h, owner_id := oid, owner := tx.owner_key,
        txid := tx.txid,
        prev_txid :=
          if (get_mapping s t nh).loaded then (get_mapping s t nh).txid
          else 0 } = true := by
    simp [row_matches]
  have hfil2 : s2.mappings.filter (row_matches t nh) =
      s.mappings.filter (row_matches t nh) ++
        [{ type := t, name_hash := nh, encrypted_value := tx.encrypted_value,
           register_height := h, owner_id := oid, owner := tx.owner_key,
           txid := tx.txid,
           prev_txid :=
             if (get_mapping s t nh).loaded then (get_mapping s t nh).txid
             else 0 }] := by
    rw [hm, List.filter_append]
    congr 1
    rw [List.filter_cons_of_pos hmatch]
    rfl
  have hget : get_mapping s2 t nh = record_of_row
      { type := t, name_hash := nh, encrypted_value := tx.encrypted_value,
        register_height := h, owner_id := oid, owner := tx.owner_key,
        txid := tx.txid,
        prev_txid :=
          if (get_mapping s t nh).loaded then (get_mapping s t nh).txid
          else 0 } := by
    rw [get_mapping, hfil2, newest_row_append_last _ _ hnewest]
  refine ⟨by rw [hget]; rfl, by rw [hget]; rfl, by rw [hget]; rfl,
    by rw [hget]; rfl, ?_⟩
  intro m hmem
  rw [hm] at hmem
  rcases List.mem_append.mp hmem with hold | hnew
  · exact Or.inl hold
  · rw [List.mem_singleton] at hnew
    rw [hnew]
    exact Or.inr rfl

/-- A valid transaction carries an encrypted blob of the exact encrypted
length of its namespace. -/
theorem tx_valid_length (hf : Nat) (tx : lns_tx) (hv : tx_valid hf tx = true) :
    tx.encrypted_value.length = binary_length tx.type + crypto_overhead := by
  rw [tx_valid, Bool.and_eq_true, Bool.and_eq_true] at hv
  have := hv.1.2
  rw [validate_encrypted_mapping_value, beq_iff_eq] at this
  exact this

/-- Every mapping row present after one ingestion step is an old row or
carries a blob of the exact encrypted length of its namespace. -/
theorem apply_tx_length_invariant (hf : Nat) (fails : Nat → Bool)
    (height : Nat) (w w1 : WState) (tx : lns_tx)
    (hstep : apply_tx hf fails height w tx = some w1) :
    ∀ m ∈ w1.st.mappings, m ∈ w.st.mappings ∨
      m.encrypted_value.length = binary_length m.type + crypto_overhead := by
  rw [apply_tx] at hstep
  by_cases hv : tx_valid hf tx = true
  · rw [if_pos hv] at hstep
    cases hso : save_owner fails w tx.owner_key with
    | none => rw [hso] at hstep; exact Option.noConfusion hstep
    | some pair =>
      obtain ⟨w0, oid⟩ := pair
      simp only [hso] at hstep
      simp only [save_mapping, do_write] at hstep
      by_cases hfw : fails w0.writes = true
      · rw [if_pos hfw] at hstep; exact Option.noConfusion hstep
      · rw [if_neg hfw] at hstep
        simp only [Option.some.injEq] at hstep
        subst hstep
        intro m hm
        have hw0 : w0.st.mappings = w.st.mappings :=
          save_owner_mappings fails w tx.owner_key w0 oid hso
        rcases List.mem_append.mp hm with hold | hnew
        · exact Or.inl (hw0 ▸ hold)
        · rw [List.mem_singleton] at hnew
          subst hnew
          exact Or.inr (tx_valid_length hf tx hv)
  · rw [if_neg hv] at hstep
    simp only [Option.some.injEq] at hstep
    subst hstep
    exact fun m hm => Or.inl hm

/-- Every mapping row present after ingesting a transaction list is an old
row or carries a blob of the exact encrypted length of its namespace. -/
theorem apply_txs_length_invariant (hf : Nat) (fails : Nat → Bool)
    (height : Nat) (txs : List lns_tx) (w w2 : WState)
    (happ : apply_txs hf fails height w txs = some w2) :
    ∀ m ∈ w2.st.mappings, m ∈ w.st.mappings ∨
      m.encrypted_value.length = binary_length m.type + crypto_overhead := by
  induction txs generalizing w with
  | nil =>
    rw [apply_txs] at happ
    simp only [Option.some.injEq] at happ
    subst happ
    exact fun m hm => Or.inl hm
  | cons tx rest ih =>
    rw [apply_txs] at happ
    cases hstep : apply_tx hf fails height w tx with
    | none => rw [hstep] at happ; exact Option.noConfusion happ
    | some w1 =>
      simp only [hstep] at happ
      intro m hm
      rcases ih w1 happ m hm with hmem | hlen
      · exact apply_tx_length_invariant hf fails height w w1 tx hstep m hmem
      · exact Or.inr hlen

end ledger_lemmas

/-- Claim C2: ingesting a registration R1 and then an update R2 for the same
(type, name_hash) chain leaves get_mapping returning the R2 row, whose
prev_txid equals the txid of R1, so every update links backward to the
transaction id of the immediately preceding record of its chain. -/
theorem chain_integrity (hf : Nat) (s : LedgerState) (t : mapping_type)
    (nh : Nat) (tx1 tx2 : lns_tx) (h1 h2 bh1 bh2 : Nat) (s1 s2 : LedgerState)
    (hfresh : (get_mapping s t nh).loaded = false)
    (ht1 : tx1.type = t) (hn1 : tx1.name_hash = nh)
    (ht2 : tx2.type = t) (hn2 : tx2.name_hash = nh)
    (hv1 : tx_valid hf tx1 = true) (hv2 : tx_valid hf tx2 = true)
    (hlt : h1 < h2)
    (hs1 : add_block hf s h1 bh1 [tx1] no_failure = some s1)
    (hs2 : add_block hf s1 h2 bh2 [tx2] no_failure = some s2) :
    (get_mapping s2 t nh).loaded = true ∧
      (get_mapping s2 t nh).txid = tx2.txid ∧
      (get_mapping s2 t nh).prev_txid = tx1.txid := by
  have hfil0 : s.mappings.filter (row_matches t nh) = [] :=
    (get_mapping_loaded_false_iff s t nh).mp hfresh
  obtain ⟨g1l, g1tx, g1prev, g1h, g1mem⟩ :=
    get_mapping_after_add_block hf s h1 bh1 tx1 s1 t nh hv1 ht1 hn1 hs1
      (by rw [hfil0]; intro m hm; cases hm)
  have hnewest1 : ∀ m ∈ s1.mappings.filter (row_matches t nh),
      m.register_height ≤ h2 := by
    intro m hm
    have hm1 := List.mem_filter.mp hm
    rcases g1mem m hm1.1 with hold | hh
    · exfalso
      have hmem0 : m ∈ s.mappings.filter (row_matches t nh) :=
        List.mem_filter.mpr ⟨hold, hm1.2⟩
      rw [hfil0] at hmem0
      cases hmem0
    · omega
  obtain ⟨g2l, g2tx, g2prev, -, -⟩ :=
    get_mapping_after_add_block hf s1 h2 bh2 tx2 s2 t nh hv2 ht2 hn2 hs2
      hnewest1
  refine ⟨g2l, g2tx, ?_⟩
  rw [g2prev, if_pos g1l, g1tx]

/-- Claim C2 witness: on the empty ledger, ingesting tx1W at height 10 and
tx2W at height 20 makes get_mapping return the tx2W row, whose prev_txid is
the txid of tx1W. -/
theorem chain_integrity_witness :
    (get_mapping s2W mapping_type.session 1).loaded = true ∧
      (get_mapping s2W mapping_type.session 1).txid = tx2W.txid ∧
      (get_mapping s2W mapping_type.session 1).prev_txid = tx1W.txid :=
  chain_integrity 0 s0W mapping_type.session 1 tx1W tx2W 10 20 100 200 s1W s2W
    (by decide) rfl rfl rfl rfl (by decide) (by decide) (by decide)
    (by decide) (by decide)

/-- Claim C3: pruning to height 15 a ledger whose chain holds rows at heights
10 and 20 deletes exactly the mapping rows registered at height 15 or newer,
leaves get_mapping returning the height-10 row, and keeps an owner row if and
only if some surviving mapping row still references it. -/
theorem reorg_reversibility (s : LedgerState) (t : mapping_type) (nh : Nat)
    (r10 r20 : mapping_row)
    (hfilter : s.mappings.filter (row_matches t nh) = [r10, r20])
    (hh10 : r10.register_height = 10) (hh20 : r20.register_height = 20) :
    (prune_db s 15).mappings =
        s.mappings.filter (fun m => decide (m.register_height < 15)) ∧
      get_mapping (prune_db s 15) t nh = record_of_row r10 ∧
      ∀ o ∈ s.owners, (o ∈ (prune_db s 15).owners ↔
        ∃ m ∈ (prune_db s 15).mappings, m.owner_id = o.id) := by
  refine ⟨rfl, ?_, ?_⟩
  · rw [get_mapping]
    have hcomm : (prune_db s 15).mappings.filter (row_matches t nh) =
        (s.mappings.filter (row_matches t nh)).filter
          (fun m => decide (m.register_height < 15)) := by
      rw [show (prune_db s 15).mappings =
          s.mappings.filter (fun m => decide (m.register_height < 15)) from
          rfl]
      rw [List.filter_filter, List.filter_filter]
      exact List.filter_congr fun a _ => Bool.and_comm _ _
    rw [hcomm, hfilter]
    rw [List.filter_cons_of_pos (by rw [hh10]; rfl),
      List.filter_cons_of_neg (by rw [hh20]; decide)]
    rfl
  · intro o ho
    rw [show (prune_db s 15).owners = s.owners.filter
        (fun o => ((prune_db s 15).mappings).any
          (fun m => decide (m.owner_id = o.id))) from rfl]
    rw [List.mem_filter]
    simp only [List.any_eq_true, decide_eq_true_iff]
    exact ⟨fun hx => hx.2, fun hx => ⟨ho, hx⟩⟩

/-- Claim C3 witness: pruning s3W (rows at heights 10 and 20, two owner rows)
to height 15 keeps exactly the height-10 row, get_mapping returns it, and an
owner survives exactly when a surviving row references it. -/
theorem reorg_reversibility_witness :
    (prune_db s3W 15).mappings =
        s3W.mappings.filter (fun m => decide (m.register_height < 15)) ∧
      get_mapping (prune_db s3W 15) mapping_type.session 1 =
        record_of_row r10W ∧
      ∀ o ∈ s3W.owners, (o ∈ (prune_db s3W 15).owners ↔
        ∃ m ∈ (prune_db s3W 15).mappings, m.owner_id = o.id) :=
  reorg_reversibility s3W mapping_type.session 1 r10W r20W (by decide) rfl rfl

/-- Claim C6: a storage-layer failure anywhere inside block ingestion yields
no new state at all: the ledger the caller keeps is its state from before the
call, with mappings, owners and checkpoint untouched (the enclosing block
transaction rolls back as a unit). -/
theorem atomic_block_failure (hf : Nat) (s : LedgerState) (h bh : Nat)
    (txs : List lns_tx) (fails : Nat → Bool)
    (hfail : add_block hf s h bh txs fails = none) :
    ((add_block hf s h bh txs fails).getD s).mappings = s.mappings ∧
      ((add_block hf s h bh txs fails).getD s).owners = s.owners ∧
      ((add_block hf s h bh txs fails).getD s).settings = s.settings := by
  rw [hfail]
  exact ⟨rfl, rfl, rfl⟩

/-- Claim C6 witness: a block of two transactions whose third storage write
fails (after the first transaction already wrote its owner and mapping rows)
leaves every store of the empty starting ledger unchanged. -/
theorem atomic_block_failure_witness :
    ((add_block 0 s0W 10 100 [tx1W, tx2W] failAt2).getD s0W).mappings =
        s0W.mappings ∧
      ((add_block 0 s0W 10 100 [tx1W, tx2W] failAt2).getD s0W).owners =
        s0W.owners ∧
      ((add_block 0 s0W 10 100 [tx1W, tx2W] failAt2).getD s0W).settings =
        s0W.settings :=
  atomic_block_failure 0 s0W 10 100 [tx1W, tx2W] failAt2 (by decide)

/-- Claim C7: the encrypted value of a namespace fits the 255-byte buffer and
equals the namespace plaintext binary length (33 bytes for session, 32 for
the lokinet types, 64 for wallet) plus the fixed cryptographic overhead;
validate_encrypted_mapping_value accepts a blob exactly when its length
equals that sum; and every mapping row a block ingestion adds carries a blob
of exactly that length. -/
theorem encrypted_value_length_invariant (hf : Nat) (t : mapping_type)
    (blob : List Nat) (s s2 : LedgerState) (h bh : Nat) (txs : List lns_tx)
    (fails : Nat → Bool) (hadd : add_block hf s h bh txs fails = some s2) :
    binary_length t + crypto_overhead ≤ BUFFER_SIZE ∧
      (binary_length mapping_type.session = 33 ∧
        binary_length mapping_type.wallet = 64 ∧
        ∀ t2, is_lokinet_type t2 = true → binary_length t2 = 32) ∧
      (validate_encrypted_mapping_value t blob = true ↔
        blob.length = binary_length t + crypto_overhead) ∧
      ∀ m ∈ s2.mappings, m ∈ s.mappings ∨
        (m.encrypted_value.length = binary_length m.type + crypto_overhead ∧
          m.encrypted_value.length ≤ BUFFER_SIZE) := by
  refine ⟨by cases t <;> decide,
    ⟨by decide, by decide, fun t2 => by cases t2 <;> decide⟩,
    by rw [validate_encrypted_mapping_value, beq_iff_eq], ?_⟩
  rw [add_block] at hadd
  cases happ : apply_txs hf fails h ⟨s, 0⟩ txs with
  | none => rw [happ] at hadd; exact Option.noConfusion hadd
  | some w =>
    simp only [happ] at hadd
    simp only [save_settings, do_write] at hadd
    by_cases hfw : fails w.writes = true
    · rw [if_pos hfw] at hadd; exact Option.noConfusion hadd
    · rw [if_neg hfw] at hadd
      simp only [Option.some.injEq] at hadd
      intro m hm
      rw [← hadd] at hm
      rcases apply_txs_length_invariant hf fails h txs ⟨s, 0⟩ _ happ m hm with
        hold | hlen
      · exact Or.inl hold
      · refine Or.inr ⟨hlen, ?_⟩
        rw [hlen]
        cases hmt : m.type <;> decide

/-- Claim C7 witness: the session namespace at the concrete ingestion of tx1W
on the empty ledger. -/
theorem encrypted_value_length_invariant_witness :
    binary_length mapping_type.session + crypto_overhead ≤ BUFFER_SIZE ∧
      (binary_length mapping_type.session = 33 ∧
        binary_length mapping_type.wallet = 64 ∧
        ∀ t2, is_lokinet_type t2 = true → binary_length t2 = 32) ∧
      (validate_encrypted_mapping_value mapping_type.session blobW = true ↔
        blobW.length = binary_length mapping_type.session + crypto_overhead) ∧
      ∀ m ∈ s1W.mappings, m ∈ s0W.mappings ∨
        (m.encrypted_value.length = binary_length m.type + crypto_overhead ∧
          m.encrypted_value.length ≤ BUFFER_SIZE) :=
  encrypted_value_length_invariant 0 mapping_type.session blobW s0W s1W 10 100
    [tx1W] no_failure (by decide)

/-- Claim C10: absence at the lookup interface is signalled uniformly through
the loaded flag: get_mapping, get_owner_by_key, get_owner_by_id and
get_settings return a record whose loaded flag is false exactly when no
matching row exists, and a loaded record with fields taken from the matching
row otherwise. -/
theorem lookup_absence_via_loaded (s : LedgerState) (t : mapping_type)
    (nh k i : Nat) :
    ((get_mapping s t nh).loaded = true ↔
        ∃ m ∈ s.mappings, m.type = t ∧ m.name_hash = nh) ∧
      ((get_mapping s t nh).loaded = true →
        ∃ m ∈ s.mappings, row_matches t nh m = true ∧
          get_mapping s t nh = record_of_row m) ∧
      ((get_owner_by_key s k).loaded = true ↔ ∃ o ∈ s.owners, o.key = k) ∧
      ((get_owner_by_key s k).loaded = true →
        ∃ o ∈ s.owners, o.key = k ∧
          get_owner_by_key s k = { loaded := true, id := o.id, key := o.key }) ∧
      ((get_owner_by_id s i).loaded = true ↔ ∃ o ∈ s.owners, o.id = i) ∧
      ((get_settings s).loaded = true ↔ s.settings ≠ none) := by
  refine ⟨?_, ?_, ?_, ?_, ?_, ?_⟩
  · constructor
    · intro hl
      by_contra hno
      push_neg at hno
      have hnil : s.mappings.filter (row_matches t nh) = [] := by
        rw [List.filter_eq_nil_iff]
        intro a ha hpa
        rw [row_matches, Bool.and_eq_true, decide_eq_true_iff,
          decide_eq_true_iff] at hpa
        exact hno a ha hpa.1 hpa.2
      have hfalse := (get_mapping_loaded_false_iff s t nh).mpr hnil
      rw [hfalse] at hl
      exact Bool.false_ne_true hl
    · rintro ⟨m, hm, hty, hnh⟩
      cases hl : (get_mapping s t nh).loaded with
      | true => rfl
      | false =>
        have hnil := (get_mapping_loaded_false_iff s t nh).mp hl
        have hmem : m ∈ s.mappings.filter (row_matches t nh) :=
          List.mem_filter.mpr ⟨hm, by simp [row_matches, hty, hnh]⟩
        rw [hnil] at hmem
        cases hmem
  · intro hl
    rw [get_mapping] at hl ⊢
    cases hq : newest_row (s.mappings.filter (row_matches t nh)) with
    | none =>
      rw [hq] at hl
      exact absurd hl (by simp [empty_mapping_record])
    | some m =>
      have hmem := List.mem_filter.mp (newest_row_mem _ m hq)
      exact ⟨m, hmem.1, hmem.2, rfl⟩
  · rw [get_owner_by_key]
    cases hq : s.owners.find? (fun o => decide (o.key = k)) with
    | some o =>
      have hpo := List.find?_some hq
      simp only [decide_eq_true_iff] at hpo
      exact iff_of_true rfl ⟨o, List.mem_of_find?_eq_some hq, hpo⟩
    | none =>
      refine iff_of_false (by simp) fun hex => ?_
      obtain ⟨o, ho, hko⟩ := hex
      rw [List.find?_eq_none] at hq
      exact hq o ho (by simp [hko])
  · intro hl
    rw [get_owner_by_key] at hl ⊢
    cases hq : s.owners.find? (fun o => decide (o.key = k)) with
    | none =>
      rw [hq] at hl
      exact absurd hl (by simp)
    | some o =>
      have hpo := List.find?_some hq
      simp only [decide_eq_true_iff] at hpo
      exact ⟨o, List.mem_of_find?_eq_some hq, hpo, rfl⟩
  · rw [get_owner_by_id]
    cases hq : s.owners.find? (fun o => decide (o.id = i)) with
    | some o =>
      have hpo := List.find?_some hq
      simp only [decide_eq_true_iff] at hpo
      exact iff_of_true rfl ⟨o, List.mem_of_find?_eq_some hq, hpo⟩
    | none =>
      refine iff_of_false (by simp) fun hex => ?_
      obtain ⟨o, ho, hio⟩ := hex
      rw [List.find?_eq_none] at hq
      exact hq o ho (by simp [hio])
  · rw [get_settings]
    cases hq : s.settings with
    | some r => exact iff_of_true rfl (by simp)
    | none => exact iff_of_false (by simp) (by simp)

end lns
